import Mathlib

/-
Verification of the wlaunchpad launcher core against its specification.

Shallow embedding conventions:
* Go strings are modelled as `List Char` (the sources only manipulate them
  bytewise on ASCII data; UTF-8 byte order coincides with code-point order,
  so lexicographic comparison on `List Char` matches Go string comparison).
* A Go runtime panic (out-of-range slice index) is modelled by `Option`,
  with `none` standing for the panic.
* File-system reads are passed in explicitly: a source file is its basename
  plus `Option` content (`none` = the file could not be opened).
-/

/-- Go `strings.Split(s, sep)` for a one-character separator: split at every
occurrence of `sep`; always returns at least one (possibly empty) piece. -/
def splitOnC (sep : Char) : List Char → List (List Char)
  | [] => [[]]
  | c :: cs =>
    match splitOnC sep cs with
    | [] => [[]]
    | t :: ts => if c = sep then [] :: t :: ts else (c :: t) :: ts

/-- ASCII whitespace test used by the `strings.TrimSpace` model. -/
def isWS (c : Char) : Bool :=
  c = ' ' || c = '\t' || c = '\n' || c = '\r'

/-- Go `strings.TrimSpace`: drop whitespace from both ends. -/
def trimWS (l : List Char) : List Char :=
  ((l.dropWhile isWS).reverse.dropWhile isWS).reverse

/-- Naive check that `pat` is a leading segment of `hay`
(Go `strings.HasPrefix`, spelled out charwise). -/
def leadsWith : List Char → List Char → Bool
  | [], _ => true
  | _ :: _, [] => false
  | c :: cs, d :: ds => c = d && leadsWith cs ds

/-- Go `strings.Contains`: `pat` occurs contiguously inside `hay`. -/
def hasSub (hay pat : List Char) : Bool :=
  match hay with
  | [] => leadsWith pat []
  | _ :: t => leadsWith pat hay || hasSub t pat

/-- Charwise lower-casing, modelling `strings.ToLower` on the ASCII data the
launcher manipulates. -/
def lowerM (l : List Char) : List Char := l.map Char.toLower

/-- Lexicographic `≤` on char lists; agrees with Go's builtin string
comparison (UTF-8 byte order equals code-point order). -/
def strLe : List Char → List Char → Bool
  | [], _ => true
  | _ :: _, [] => false
  | a :: as, b :: bs => if a = b then strLe as bs else decide (a < b)

/-- One desktop-entry record, translated field by field from the
`desktopEntry` struct in main.go. -/
structure DesktopEntry where
  DesktopID : List Char
  Name : List Char
  NameLoc : List Char
  Comment : List Char
  CommentLoc : List Char
  Icon : List Char
  Exec : List Char
  Category : List Char
  Terminal : Bool
  NoDisplay : Bool
deriving DecidableEq, Repr

/-- The zero `desktopEntry` with its identity set, as at the top of
`parseDesktopEntry` (`entry.DesktopID = id`). -/
def initEntry (id : List Char) : DesktopEntry :=
  ⟨id, [], [], [], [], [], [], [], false, false⟩

/-- `parseKeypair` from the source: split a line at the first `=` when that
`=` is at a positive index, trimming both sides; otherwise the value is
empty. -/
def parseKeypairM (s : List Char) : List Char × List Char :=
  let idx := s.findIdx (fun c => c = '=')
  if 0 < idx ∧ idx < s.length then
    (trimWS (s.take idx), trimWS (s.drop (idx + 1)))
  else (s, [])

/-- Go `strconv.ParseBool` collapsed to the assigned value: the accepted
true spellings give `true`; everything else (including a parse error,
whose result Go assigns anyway) gives `false`. -/
def goParseBool (v : List Char) : Bool :=
  decide (v ∈ [['1'], ['t'], ['T'],
    ['t','r','u','e'], ['T','R','U','E'], ['T','r','u','e']])

/-- The locale primary subtag: `LANG` split on `.` keeping the front, then
split on `_` keeping the front. -/
def primarySubtag (lang : List Char) : List Char :=
  (splitOnC '_' ((splitOnC '.' lang).headD [])).headD []

/-- The bracketed localized-name key `Name[<subtag>]`. -/
def nameLocKey (lang : List Char) : List Char :=
  ['N','a','m','e','['] ++ primarySubtag lang ++ [']']

/-- The bracketed localized-comment key `Comment[<subtag>]`. -/
def commentLocKey (lang : List Char) : List Char :=
  ['C','o','m','m','e','n','t','['] ++ primarySubtag lang ++ [']']

/-- The `switch name` body of `parseDesktopEntry` applied to one split
keypair: skip pairs with an empty value, otherwise update the matching
field; `Exec` strips every double and single quote; unknown keys fall
through. -/
def applyKV (lang : List Char) (nv : List Char × List Char) (e : DesktopEntry) : DesktopEntry :=
  if nv.2 = [] then e
  else if nv.1 = ['N','a','m','e'] then { e with Name := nv.2 }
  else if nv.1 = nameLocKey lang then { e with NameLoc := nv.2 }
  else if nv.1 = ['C','o','m','m','e','n','t'] then { e with Comment := nv.2 }
  else if nv.1 = commentLocKey lang then { e with CommentLoc := nv.2 }
  else if nv.1 = ['I','c','o','n'] then { e with Icon := nv.2 }
  else if nv.1 = ['C','a','t','e','g','o','r','i','e','s'] then { e with Category := nv.2 }
  else if nv.1 = ['T','e','r','m','i','n','a','l'] then { e with Terminal := goParseBool nv.2 }
  else if nv.1 = ['N','o','D','i','s','p','l','a','y'] then { e with NoDisplay := goParseBool nv.2 }
  else if nv.1 = ['E','x','e','c'] then
    { e with Exec := nv.2.filter (fun c => c ≠ '"' && c ≠ '\'') }
  else e

/-- One loop body of `parseDesktopEntry`: split the line at its first `=`
and dispatch on the key. -/
def applyLineM (lang : List Char) (l : List Char) (e : DesktopEntry) : DesktopEntry :=
  applyKV lang (parseKeypairM l) e

/-- The literal section header `[Desktop Entry]`. -/
def sectionHeader : List Char :=
  ['[','D','e','s','k','t','o','p',' ','E','n','t','r','y',']']

/-- The scanner loop of `parseDesktopEntry`: process lines in order, breaking
at the first line that starts with `[` and is not the literal header. -/
def scanEntryLines (lang : List Char) (e : DesktopEntry) : List (List Char) → DesktopEntry
  | [] => e
  | l :: ls =>
    if l.head? = some '[' ∧ l ≠ sectionHeader then e
    else scanEntryLines lang (applyLineM lang l e) ls

/-- The post-scan fallback: an empty localized name is replaced by the
plain name. -/
def nameFallback (e : DesktopEntry) : DesktopEntry :=
  if e.NameLoc = [] then { e with NameLoc := e.Name } else e

/-- The post-scan fallback: an empty localized comment is replaced by the
plain comment. -/
def commentFallback (e : DesktopEntry) : DesktopEntry :=
  if e.CommentLoc = [] then { e with CommentLoc := e.Comment } else e

/-- `parseDesktopEntry`: scan the lines, then fall back to the unlocalized
name and comment when the localized ones are empty. The Go function's `err`
result is never assigned, so the model is total. -/
def parseDesktopEntryM (id lang : List Char) (lines : List (List Char)) : DesktopEntry :=
  commentFallback (nameFallback (scanEntryLines lang (initEntry id) lines))

/-- Strip one trailing carriage return, as `bufio.ScanLines` does. -/
def dropCR (l : List Char) : List Char :=
  if l.getLast? = some '\r' then l.dropLast else l

/-- Split a raw stream into the token sequence produced by a
`bufio.Scanner` with `bufio.ScanLines`: split on `\n`, a trailing newline
yields no extra empty line, and each line loses one trailing `\r`. -/
def goLines (s : List Char) : List (List Char) :=
  let parts := splitOnC '\n' s
  let parts := if parts.getLast? = some [] then parts.dropLast else parts
  parts.map dropCR

/-- `parseDesktopEntryFile`: an unreadable file (`none`) is the only failure;
otherwise parse the content. -/
def parseDesktopEntryFileM (id lang : List Char) (file : Option (List (List Char))) :
    Option DesktopEntry :=
  match file with
  | none => none
  | some lines => some (parseDesktopEntryM id lang lines)

/-- An invocation spec as handed to `exec.Command` plus `cmd.Env`. -/
structure InvocationSpec where
  executable : List Char
  arguments : List (List Char)
  envOverrides : List (List Char)
deriving DecidableEq, Repr

/-- The `%`-truncation step of `launch`: when the command contains `%` it is
cut to `command[:cutAt-1]`. A first `%` at index 0 makes that slice index
`-1`, which panics in Go; the panic is modelled as `none`. -/
def truncatePercentM (command : List Char) : Option (List Char) :=
  if '%' ∈ command then
    let cutAt := command.findIdx (fun c => c = '%')
    if cutAt = 0 then none
    else some (command.take (cutAt - 1))
  else some command

/-- The executable-detection test of the `launch` loop: a token qualifies
when it contains no `=` and does not start with `-`. -/
def goodToken (tok : List Char) : Bool :=
  decide ('=' ∉ tok) && decide (tok.head? ≠ some '-')

/-- The `envVars` slice of `launch`: when the command contains an `=`
(`strings.Count(command, "=") > 0`), every token containing `=` is
collected; otherwise the loop never runs and the slice stays empty. -/
def envVarsOf (cmd : List Char) : List (List Char) :=
  if 0 < cmd.count '=' then (splitOnC ' ' cmd).filter (fun tok => decide ('=' ∈ tok)) else []

/-- The `cmdIdx` computed by `launch`: the first qualifying token's index
when the command contains an `=` and one exists, and 0 otherwise (the
`cmdIdx == -1` fallback). -/
def cmdIdxOf (cmd : List Char) : Nat :=
  if 0 < cmd.count '=' then ((splitOnC ' ' cmd).findIdx? goodToken).getD 0 else 0

/-- The `exec.Command` call built from the already-truncated command:
`exec.Command(elements[cmdIdx], elements[1+cmdIdx:]...)`, replaced in
terminal mode by `exec.Command(*term, elements[cmdIdx])`; the env override
slice rides along unchanged. Indexing out of range would panic (`none`). -/
def launchCore (cmd : List Char) (terminal : Bool) (term : List Char) :
    Option InvocationSpec :=
  match (splitOnC ' ' cmd)[cmdIdxOf cmd]? with
  | none => none
  | some exe =>
    if terminal then some ⟨term, [exe], envVarsOf cmd⟩
    else some ⟨exe, (splitOnC ' ' cmd).drop (1 + cmdIdxOf cmd), envVarsOf cmd⟩

/-- `launch` up to process start: truncate at `%` (possible panic), then
build the invocation spec. -/
def launchSpecM (command : List Char) (terminal : Bool) (term : List Char) :
    Option InvocationSpec :=
  match truncatePercentM command with
  | none => none
  | some cmd => launchCore cmd terminal term

/-- Modelled from the spec: the truncation rule as §4.3 words it — drop the
first token containing a `%` placeholder and everything after it, keeping
the earlier tokens joined by single spaces. Used to compare the spec's
token-level rule with the character-level cut the source performs. -/
def tokenDropTruncate (s : List Char) : List Char :=
  List.intercalate [' '] ((splitOnC ' ' s).takeWhile (fun t => decide ('%' ∉ t)))

/-- One discovered candidate file: its basename (the dedup id) and its
content, `none` when opening the file fails. -/
structure SourceFile where
  base : List Char
  content : Option (List (List Char))
deriving DecidableEq, Repr

/-- The mutable state of the `parseDesktopFiles` scan loop. -/
structure ScanState where
  entries : List DesktopEntry
  seenIds : List (List Char)
  skipped : Nat
  hidden : Nat
deriving DecidableEq, Repr

/-- One iteration of the `parseDesktopFiles` loop: an already-seen basename
only bumps the duplicate counter; an unreadable file is skipped; otherwise
the parsed entry is appended and its id recorded (hidden entries are
counted but kept, per the comment fixing issue 19). -/
def scanStep (lang : List Char) (st : ScanState) (f : SourceFile) : ScanState :=
  if f.base ∈ st.seenIds then { st with skipped := st.skipped + 1 }
  else
    match parseDesktopEntryFileM f.base lang f.content with
    | none => st
    | some entry =>
      { st with
        hidden := if entry.NoDisplay then st.hidden + 1 else st.hidden
        entries := st.entries ++ [entry]
        seenIds := entry.DesktopID :: st.seenIds }

/-- The whole scan pass of `parseDesktopFiles`, before sorting. -/
def scanFiles (lang : List Char) (files : List SourceFile) : ScanState :=
  files.foldl (scanStep lang) ⟨[], [], 0, 0⟩

/-- The comparison `parseDesktopFiles` sorts by: ordinal order of the
localized name. -/
def nameLe (a b : DesktopEntry) : Prop :=
  strLe a.NameLoc b.NameLoc = true

instance instDecNameLe : DecidableRel nameLe := fun a b => by
  unfold nameLe; infer_instance

/-- The index produced by one refresh: scan all candidate files, then sort
ascending by localized name (`sort.Slice` modelled as a comparison sort by
the same order). -/
def refreshEntries (lang : List Char) (files : List SourceFile) : List DesktopEntry :=
  List.insertionSort nameLe (scanFiles lang files).entries

/-- Case-insensitive substring match, `strings.Contains(strings.ToLower(hay),
strings.ToLower(pat))`. -/
def ciContains (hay pat : List Char) : Bool :=
  hasSub (lowerM hay) (lowerM pat)

/-- The filter condition of the `setUpAppsFlowBox` loop: an empty phrase
passes everything, otherwise the entry must be displayable and match one of
the four searched fields. -/
def entryMatches (e : DesktopEntry) (p : List Char) : Bool :=
  decide (p = []) ||
    (!e.NoDisplay &&
      (ciContains e.NameLoc p || ciContains e.CommentLoc p ||
       ciContains e.Comment p || ciContains e.Exec p))

/-- The entries `setUpAppsFlowBox` actually emits as buttons: those passing
the phrase filter that are additionally not hidden. -/
def queryM (entries : List DesktopEntry) (p : List Char) : List DesktopEntry :=
  entries.filter (fun e => entryMatches e p && !e.NoDisplay)

/-- First-occurrence filter: the sublist of files whose basename has not
appeared before (neither in `seen` nor earlier in the list). Characterizes
the winners of the scan's deduplication. -/
def newFiles : List (List Char) → List SourceFile → List SourceFile
  | _, [] => []
  | seen, f :: fs =>
    if f.base ∈ seen then newFiles seen fs
    else f :: newFiles (f.base :: seen) fs

/-- The entry the scan stores for a readable file. -/
def parseOfM (lang : List Char) (f : SourceFile) : DesktopEntry :=
  parseDesktopEntryM f.base lang (f.content.getD [])

/-- Decimal-digit accumulator used by the `strconv.Atoi` model. -/
def digitsToNat (l : List Char) : Nat :=
  l.foldl (fun a c => a * 10 + (c.toNat - 48)) 0

/-- The digit-and-range part of `strconv.Atoi` after the sign has been
split off: one or more ASCII digits, with the 64-bit `int` range check;
any syntax or range error yields `none`. -/
def goAtoiCore (neg : Bool) (ds : List Char) : Option Int :=
  if ds = [] ∨ ¬ (ds.all Char.isDigit) then none
  else if neg then
    if digitsToNat ds ≤ 2 ^ 63 then some (-(digitsToNat ds : Int)) else none
  else if digitsToNat ds < 2 ^ 63 then some ((digitsToNat ds : Int)) else none

/-- Go `strconv.Atoi`: optional sign, then one or more ASCII digits. -/
def goAtoi (s : List Char) : Option Int :=
  goAtoiCore (s.head? = some '-')
    (if s.head? = some '+' ∨ s.head? = some '-' then s.tail else s)

/-- The digit character for a value below ten. -/
def digitChar (d : Nat) : Char := Char.ofNat (48 + d)

/-- Go `strconv.Itoa` on a non-negative value: its decimal digits, most
significant first. This is what `createLockFile` writes into the lock
file. -/
def goItoa (n : Nat) : List Char :=
  if n = 0 then ['0'] else ((Nat.digits 10 n).map digitChar).reverse

/-- `getLockFilePid`: read the lock file (`none` = read error) and parse its
content as a decimal pid. -/
def getLockFilePidM (contents : Option (List Char)) : Option Int :=
  contents.bind goAtoi

/-- What the losing process does and how it ends. -/
structure RelayOutcome where
  toggled : Option Int
  exitCode : Nat
deriving DecidableEq, Repr

/-- The lock-contention branch of `main`: when `createLockFile` fails, read
the owner pid; on success send it SIGUSR1 (`toggled = some pid`, the Kill
error being ignored), otherwise relay nothing; either way `os.Exit(0)`. -/
def relayOnContention (contents : Option (List Char)) : RelayOutcome :=
  match getLockFilePidM contents with
  | some pid => ⟨some pid, 0⟩
  | none => ⟨none, 0⟩

/-- The key strings the `parseDesktopEntry` switch recognizes (two of them
locale-dependent); every other key falls through to the empty default. -/
def recognizedKeys (lang : List Char) : List (List Char) :=
  [['N','a','m','e'], nameLocKey lang, ['C','o','m','m','e','n','t'], commentLocKey lang,
   ['I','c','o','n'], ['C','a','t','e','g','o','r','i','e','s'],
   ['T','e','r','m','i','n','a','l'], ['N','o','D','i','s','p','l','a','y'],
   ['E','x','e','c']]

/-! ### Basic facts about the split and order helpers -/

theorem splitOnC_cons_eq (sep c : Char) (cs t : List Char) (ts : List (List Char))
    (h : splitOnC sep cs = t :: ts) :
    splitOnC sep (c :: cs) = if c = sep then [] :: t :: ts else (c :: t) :: ts := by
  unfold splitOnC
  rw [h]

theorem splitOnC_ne_nil : ∀ (sep : Char) (l : List Char), splitOnC sep l ≠ []
  | _, [] => by simp [splitOnC]
  | sep, c :: cs => by
    cases h : splitOnC sep cs with
    | nil => exact absurd h (splitOnC_ne_nil sep cs)
    | cons t ts =>
      rw [splitOnC_cons_eq sep c cs t ts h]
      split <;> simp

theorem mem_splitOnC : ∀ (sep : Char) (l t : List Char),
    t ∈ splitOnC sep l → ∀ c ∈ t, c ∈ l
  | _, [], t => by
    intro ht c hc
    simp [splitOnC] at ht
    subst ht
    simp at hc
  | sep, a :: as, t => by
    intro ht c hc
    have ih := mem_splitOnC sep as
    cases h : splitOnC sep as with
    | nil => exact absurd h (splitOnC_ne_nil sep as)
    | cons u us =>
      rw [splitOnC_cons_eq sep a as u us h] at ht
      by_cases ha : a = sep
      · rw [if_pos ha] at ht
        rcases List.mem_cons.1 ht with h1 | h1
        · subst h1; simp at hc
        · exact List.mem_cons_of_mem a (ih t (h ▸ h1) c hc)
      · rw [if_neg ha] at ht
        rcases List.mem_cons.1 ht with h1 | h1
        · subst h1
          rcases List.mem_cons.1 hc with h2 | h2
          · exact h2 ▸ List.mem_cons_self a as
          · exact List.mem_cons_of_mem a (ih u (h ▸ List.mem_cons_self u us) c h2)
        · exact List.mem_cons_of_mem a (ih t (h ▸ List.mem_cons_of_mem u h1) c hc)

theorem strLe_total : ∀ a b : List Char, strLe a b = true ∨ strLe b a = true
  | [], _ => Or.inl rfl
  | _ :: _, [] => Or.inr rfl
  | a :: as, b :: bs => by
    by_cases h : a = b
    · subst h
      rcases strLe_total as bs with h1 | h1
      · left; simpa [strLe] using h1
      · right; simpa [strLe] using h1
    · rcases lt_trichotomy a b with hlt | heq | hgt
      · left; simp [strLe, h, hlt]
      · exact absurd heq h
      · right; simp [strLe, Ne.symm h, hgt]

theorem strLe_trans : ∀ a b c : List Char,
    strLe a b = true → strLe b c = true → strLe a c = true
  | [], _, _ => by intro _ _; rfl
  | _ :: _, [], _ => by intro h _; simp [strLe] at h
  | _ :: _, _ :: _, [] => by intro _ h; simp [strLe] at h
  | a :: as, b :: bs, c :: cs => by
    intro h1 h2
    by_cases hab : a = b <;> by_cases hbc : b = c
    · subst hab; subst hbc
      simp [strLe] at h1 h2 ⊢
      exact strLe_trans as bs cs h1 h2
    · subst hab
      simp [strLe, hbc] at h2
      simp [strLe, hbc, h2]
    · subst hbc
      simp [strLe, hab] at h1
      simp [strLe, hab, h1]
    · simp [strLe, hab] at h1
      simp [strLe, hbc] at h2
      have hac : a < c := lt_trans h1 h2
      simp [strLe, ne_of_lt hac, hac]

/-! ### Claims about the command interpreter -/

theorem findIdx_percent_append : ∀ (a b : List Char), '%' ∉ a →
    List.findIdx (fun c => c = '%') (a ++ ' ' :: '%' :: b) = a.length + 1
  | [], _, _ => rfl
  | c :: cs, b, ha => by
    have h1 : ¬ (c = '%') := fun h => ha (by simp [h])
    have h2 : '%' ∉ cs := fun h => ha (List.mem_cons_of_mem _ h)
    have ih := findIdx_percent_append cs b h2
    simp only [List.cons_append, List.findIdx_cons, decide_eq_false h1, cond_false, ih,
      List.length_cons]

/-- Claim C2 (code bug): the spec requires the `%`-truncation to guard the
placeholder-at-position-0 edge and never produce a malformed slice index,
but for a template whose first character is `%` the code computes
`command[:0-1]`, an out-of-range slice: the launch pipeline panics
(modelled by `none`). -/
theorem launch_truncation_percent_at_zero_diverges :
    launchSpecM ("%U".toList) false ("foot".toList) = none := by decide

/-- Claim C1, counterexample: for the template `FOO=bar cmd arg1` the process
is started with arguments `["arg1"]` — the slice `elements[1+cmdIdx:]` —
which differs from "all tokens from index 1 of the original split onward"
(`["cmd","arg1"]`) asserted by the claim. -/
theorem launch_arguments_not_first_token_relative :
    launchSpecM ("FOO=bar cmd arg1".toList) false ("foot".toList)
        = some ⟨"cmd".toList, ["arg1".toList], ["FOO=bar".toList]⟩
      ∧ ¬ (["arg1".toList] = (splitOnC ' ' ("FOO=bar cmd arg1".toList)).drop 1) := by
  decide

/-- Claim C1, amended: for every template containing `=` after truncation,
the tokens containing `=` become the env overrides, the executable is the
token at the detected index (first token with no `=` not starting with
`-`, defaulting to 0), and the argument list is all tokens from the
detected index plus one onward — relative to the detected executable, not
to the first token; `parse("FOO=bar cmd arg1")` yields executable `cmd`,
envOverrides `["FOO=bar"]`, arguments `["arg1"]`. -/
theorem launch_arguments_relative_to_detected_executable :
    (∀ (command t cmd : List Char) (s : InvocationSpec),
        truncatePercentM command = some cmd →
        '=' ∈ cmd →
        launchSpecM command false t = some s →
        s.envOverrides = (splitOnC ' ' cmd).filter (fun tok => decide ('=' ∈ tok)) ∧
        ∃ i, (splitOnC ' ' cmd)[i]? = some s.executable
          ∧ s.arguments = (splitOnC ' ' cmd).drop (1 + i)
          ∧ ((goodToken s.executable = true
                ∧ ∀ j, j < i → ∀ y, (splitOnC ' ' cmd)[j]? = some y → goodToken y = false)
              ∨ (i = 0 ∧ ∀ tok ∈ splitOnC ' ' cmd, goodToken tok = false)))
  ∧ launchSpecM ("FOO=bar cmd arg1".toList) false ("foot".toList)
      = some ⟨"cmd".toList, ["arg1".toList], ["FOO=bar".toList]⟩ := by
  constructor
  · intro command t cmd s htr hmem h
    have hcount : 0 < cmd.count '=' := List.count_pos_iff.2 hmem
    unfold launchSpecM at h
    rw [htr] at h
    have hc : launchCore cmd false t = some s := h
    unfold launchCore at hc
    have hidx : cmdIdxOf cmd = ((splitOnC ' ' cmd).findIdx? goodToken).getD 0 := by
      unfold cmdIdxOf
      rw [if_pos hcount]
    have henv : envVarsOf cmd = (splitOnC ' ' cmd).filter (fun tok => decide ('=' ∈ tok)) := by
      unfold envVarsOf
      rw [if_pos hcount]
    cases hg : (splitOnC ' ' cmd)[cmdIdxOf cmd]? with
    | none =>
      rw [hg] at hc
      exact absurd hc (by simp)
    | some exe =>
      rw [hg] at hc
      have h' : some (InvocationSpec.mk exe
          ((splitOnC ' ' cmd).drop (1 + cmdIdxOf cmd)) (envVarsOf cmd)) = some s := hc
      obtain rfl : InvocationSpec.mk exe
          ((splitOnC ' ' cmd).drop (1 + cmdIdxOf cmd)) (envVarsOf cmd) = s :=
        Option.some.inj h'
      refine ⟨henv, cmdIdxOf cmd, hg, rfl, ?_⟩
      rw [hidx] at hg ⊢
      cases hf : (splitOnC ' ' cmd).findIdx? goodToken with
      | none =>
        right
        refine ⟨by simp [hf], ?_⟩
        exact fun tok htok => (List.findIdx?_eq_none_iff.1 hf) tok htok
      | some k =>
        simp only [hf, Option.getD_some] at hg ⊢
        left
        obtain ⟨hk, hfi⟩ := List.findIdx?_eq_some_iff_findIdx_eq.1 hf
        obtain ⟨hk', hget⟩ := List.getElem?_eq_some_iff.1 hg
        constructor
        · rw [← hget]
          have hlt : List.findIdx goodToken (splitOnC ' ' cmd) < (splitOnC ' ' cmd).length :=
            hfi ▸ hk
          have hgt := @List.findIdx_getElem _ goodToken (splitOnC ' ' cmd) hlt
          simpa [hfi] using hgt
        · intro j hj y hy
          obtain ⟨hj', hgety⟩ := List.getElem?_eq_some_iff.1 hy
          have hlt : j < List.findIdx goodToken (splitOnC ' ' cmd) := by omega
          have hnot := List.not_of_lt_findIdx hlt
          rw [← hgety]
          exact hnot
  · decide

/-- Claim C6, counterexample: the truncation is character-level, cutting one
character before the first `%`, not token-level as the claim words it: on
`cmd%x y` the code keeps `cm`, while dropping the `%`-token and everything
after it would keep nothing. -/
theorem truncate_cut_is_not_token_level :
    truncatePercentM ("cmd%x y".toList) = some ("cm".toList)
  ∧ ¬ ("cm".toList = tokenDropTruncate ("cmd%x y".toList)) := by decide

/-- Claim C6, amended: when the first `%` begins a space-separated token the
interpreter cuts at one character before it, dropping the separating space,
the placeholder token and everything after; `parse("cmd %U extra")` yields
executable `cmd` with no arguments. -/
theorem truncate_drops_space_and_placeholder :
    (∀ (a b : List Char), '%' ∉ a →
        truncatePercentM (a ++ ' ' :: '%' :: b) = some a)
  ∧ (∀ t : List Char, launchSpecM ("cmd %U extra".toList) false t
      = some ⟨"cmd".toList, [], []⟩) := by
  constructor
  · intro a b ha
    have hmem : '%' ∈ a ++ ' ' :: '%' :: b := by simp
    simp only [truncatePercentM, if_pos hmem, findIdx_percent_append a b ha]
    rw [if_neg (by omega : ¬ (a.length + 1 = 0))]
    have h1 : a.length + 1 - 1 = a.length := by omega
    rw [h1, List.take_left]
  · intro t
    rfl

/-- Claim C7: for a descriptor requesting a terminal the invocation is
replaced by the configured terminal emulator with a single argument, the
bare executable token, environment overrides unchanged; exec
`vim file.txt` with terminal `foot` yields `foot` with arguments
`["vim"]`. -/
theorem terminal_mode_invocation :
    (∀ (command t : List Char) (s sNT : InvocationSpec),
        launchSpecM command true t = some s →
        launchSpecM command false t = some sNT →
        s.executable = t ∧ s.arguments = [sNT.executable]
          ∧ s.envOverrides = sNT.envOverrides)
  ∧ launchSpecM ("vim file.txt".toList) true ("foot".toList)
      = some ⟨"foot".toList, ["vim".toList], []⟩ := by
  constructor
  · intro command t s sNT h1 h2
    unfold launchSpecM at h1 h2
    cases htr : truncatePercentM command with
    | none =>
      rw [htr] at h1
      exact absurd h1 (by simp)
    | some cmd =>
      rw [htr] at h1 h2
      have hc1 : launchCore cmd true t = some s := h1
      have hc2 : launchCore cmd false t = some sNT := h2
      unfold launchCore at hc1 hc2
      cases hg : (splitOnC ' ' cmd)[cmdIdxOf cmd]? with
      | none =>
        rw [hg] at hc1
        exact absurd hc1 (by simp)
      | some exe =>
        rw [hg] at hc1 hc2
        have h1' : some (InvocationSpec.mk t [exe] (envVarsOf cmd)) = some s := hc1
        have h2' : some (InvocationSpec.mk exe
            ((splitOnC ' ' cmd).drop (1 + cmdIdxOf cmd)) (envVarsOf cmd)) = some sNT := hc2
        obtain rfl := Option.some.inj h1'
        obtain rfl := Option.some.inj h2'
        exact ⟨rfl, rfl, rfl⟩
  · decide

/-- Claim C7 witness at the concrete terminal-mode example. -/
theorem terminal_mode_invocation_witness :
    (InvocationSpec.mk ("foot".toList) ["vim".toList] []).executable = "foot".toList
  ∧ (InvocationSpec.mk ("foot".toList) ["vim".toList] []).arguments
      = [(InvocationSpec.mk ("vim".toList) ["file.txt".toList] []).executable]
  ∧ (InvocationSpec.mk ("foot".toList) ["vim".toList] []).envOverrides
      = (InvocationSpec.mk ("vim".toList) ["file.txt".toList] []).envOverrides :=
  terminal_mode_invocation.1 ("vim file.txt".toList) ("foot".toList)
    (InvocationSpec.mk ("foot".toList) ["vim".toList] [])
    (InvocationSpec.mk ("vim".toList) ["file.txt".toList] [])
    (by decide) (by decide)

/-- Claim C10: tokens containing `=` that sit after the detected executable
are collected as environment overrides yet stay in the argument slice, so
they reach the child both ways; `cmd FOO=bar arg` starts `cmd` with
arguments `["FOO=bar","arg"]` while also appending `FOO=bar` to the
inherited environment. -/
theorem env_tokens_stay_in_arguments :
    (∀ (command t : List Char) (s : InvocationSpec),
        launchSpecM command false t = some s →
        ∀ tok ∈ s.arguments, '=' ∈ tok → tok ∈ s.envOverrides)
  ∧ launchSpecM ("cmd FOO=bar arg".toList) false ("foot".toList)
      = some ⟨"cmd".toList, ["FOO=bar".toList, "arg".toList], ["FOO=bar".toList]⟩ := by
  constructor
  · intro command t s h tok htok heq
    unfold launchSpecM at h
    cases htr : truncatePercentM command with
    | none =>
      rw [htr] at h
      exact absurd h (by simp)
    | some cmd =>
      rw [htr] at h
      have hc : launchCore cmd false t = some s := h
      unfold launchCore at hc
      cases hg : (splitOnC ' ' cmd)[cmdIdxOf cmd]? with
      | none =>
        rw [hg] at hc
        exact absurd hc (by simp)
      | some exe =>
        rw [hg] at hc
        have h' : some (InvocationSpec.mk exe
            ((splitOnC ' ' cmd).drop (1 + cmdIdxOf cmd)) (envVarsOf cmd)) = some s := hc
        obtain rfl := Option.some.inj h'
        have htok' : tok ∈ splitOnC ' ' cmd := List.mem_of_mem_drop htok
        have hcmd : '=' ∈ cmd := mem_splitOnC ' ' cmd tok htok' '=' heq
        have hcount : 0 < cmd.count '=' := List.count_pos_iff.2 hcmd
        show tok ∈ envVarsOf cmd
        unfold envVarsOf
        rw [if_pos hcount]
        exact List.mem_filter.2 ⟨htok', by simpa using heq⟩
  · decide

/-- Claim C10 witness: in the concrete example `FOO=bar` indeed appears in
both the argument list and the env overrides. -/
theorem env_tokens_stay_in_arguments_witness :
    ("FOO=bar".toList) ∈ (InvocationSpec.mk ("cmd".toList)
      ["FOO=bar".toList, "arg".toList] ["FOO=bar".toList]).envOverrides :=
  env_tokens_stay_in_arguments.1 ("cmd FOO=bar arg".toList) ("foot".toList)
    (InvocationSpec.mk ("cmd".toList) ["FOO=bar".toList, "arg".toList] ["FOO=bar".toList])
    (by decide) ("FOO=bar".toList) (by decide) (by decide)

/-- Claim C1 witness, instantiating the amended statement at
`FOO=bar cmd arg1`. -/
theorem launch_arguments_relative_witness :
    (InvocationSpec.mk ("cmd".toList) ["arg1".toList] ["FOO=bar".toList]).envOverrides
      = (splitOnC ' ' ("FOO=bar cmd arg1".toList)).filter (fun tok => decide ('=' ∈ tok))
  ∧ ∃ i, (splitOnC ' ' ("FOO=bar cmd arg1".toList))[i]?
        = some (InvocationSpec.mk ("cmd".toList) ["arg1".toList] ["FOO=bar".toList]).executable
      ∧ (InvocationSpec.mk ("cmd".toList) ["arg1".toList] ["FOO=bar".toList]).arguments
        = (splitOnC ' ' ("FOO=bar cmd arg1".toList)).drop (1 + i)
      ∧ ((goodToken (InvocationSpec.mk ("cmd".toList) ["arg1".toList]
            ["FOO=bar".toList]).executable = true
            ∧ ∀ j, j < i → ∀ y, (splitOnC ' ' ("FOO=bar cmd arg1".toList))[j]? = some y →
                goodToken y = false)
          ∨ (i = 0 ∧ ∀ tok ∈ splitOnC ' ' ("FOO=bar cmd arg1".toList),
              goodToken tok = false)) :=
  launch_arguments_relative_to_detected_executable.1 ("FOO=bar cmd arg1".toList)
    ("foot".toList) ("FOO=bar cmd arg1".toList)
    (InvocationSpec.mk ("cmd".toList) ["arg1".toList] ["FOO=bar".toList])
    (by decide) (by decide) (by decide)

/-- Claim C6 witness: the amended truncation rule at `cmd %U extra`. -/
theorem truncate_drops_space_and_placeholder_witness :
    truncatePercentM ("cmd".toList ++ ' ' :: '%' :: ("U extra".toList))
      = some ("cmd".toList) :=
  truncate_drops_space_and_placeholder.1 ("cmd".toList) ("U extra".toList) (by decide)
/-! ### Claims about the entry parser -/

theorem applyKV_fields (lang : List Char) (nv : List Char × List Char) (e : DesktopEntry) :
    (applyKV lang nv e).DesktopID = e.DesktopID
  ∧ ((applyKV lang nv e).Exec = e.Exec
      ∨ (applyKV lang nv e).Exec = nv.2.filter (fun c => c ≠ '"' && c ≠ '\'')) := by
  unfold applyKV
  by_cases h1 : nv.2 = []
  · rw [if_pos h1]; exact ⟨rfl, Or.inl rfl⟩
  rw [if_neg h1]
  by_cases h2 : nv.1 = ['N','a','m','e']
  · rw [if_pos h2]; exact ⟨rfl, Or.inl rfl⟩
  rw [if_neg h2]
  by_cases h3 : nv.1 = nameLocKey lang
  · rw [if_pos h3]; exact ⟨rfl, Or.inl rfl⟩
  rw [if_neg h3]
  by_cases h4 : nv.1 = ['C','o','m','m','e','n','t']
  · rw [if_pos h4]; exact ⟨rfl, Or.inl rfl⟩
  rw [if_neg h4]
  by_cases h5 : nv.1 = commentLocKey lang
  · rw [if_pos h5]; exact ⟨rfl, Or.inl rfl⟩
  rw [if_neg h5]
  by_cases h6 : nv.1 = ['I','c','o','n']
  · rw [if_pos h6]; exact ⟨rfl, Or.inl rfl⟩
  rw [if_neg h6]
  by_cases h7 : nv.1 = ['C','a','t','e','g','o','r','i','e','s']
  · rw [if_pos h7]; exact ⟨rfl, Or.inl rfl⟩
  rw [if_neg h7]
  by_cases h8 : nv.1 = ['T','e','r','m','i','n','a','l']
  · rw [if_pos h8]; exact ⟨rfl, Or.inl rfl⟩
  rw [if_neg h8]
  by_cases h9 : nv.1 = ['N','o','D','i','s','p','l','a','y']
  · rw [if_pos h9]; exact ⟨rfl, Or.inl rfl⟩
  rw [if_neg h9]
  by_cases h10 : nv.1 = ['E','x','e','c']
  · rw [if_pos h10]; exact ⟨rfl, Or.inr rfl⟩
  rw [if_neg h10]; exact ⟨rfl, Or.inl rfl⟩

theorem applyLineM_DesktopID (lang l : List Char) (e : DesktopEntry) :
    (applyLineM lang l e).DesktopID = e.DesktopID :=
  (applyKV_fields lang (parseKeypairM l) e).1

theorem scanEntryLines_DesktopID (lang : List Char) :
    ∀ (lines : List (List Char)) (e : DesktopEntry),
      (scanEntryLines lang e lines).DesktopID = e.DesktopID
  | [], _ => rfl
  | l :: ls, e => by
    unfold scanEntryLines
    split
    · rfl
    · rw [scanEntryLines_DesktopID lang ls (applyLineM lang l e), applyLineM_DesktopID]

theorem nameFallback_DesktopID (e : DesktopEntry) :
    (nameFallback e).DesktopID = e.DesktopID := by
  unfold nameFallback
  split <;> rfl

theorem commentFallback_DesktopID (e : DesktopEntry) :
    (commentFallback e).DesktopID = e.DesktopID := by
  unfold commentFallback
  split <;> rfl

theorem parseDesktopEntryM_DesktopID (id lang : List Char) (lines : List (List Char)) :
    (parseDesktopEntryM id lang lines).DesktopID = id := by
  unfold parseDesktopEntryM
  rw [commentFallback_DesktopID, nameFallback_DesktopID, scanEntryLines_DesktopID]
  rfl

theorem applyLineM_Exec_no_quotes (lang l : List Char) (e : DesktopEntry)
    (h : '"' ∉ e.Exec ∧ '\'' ∉ e.Exec) :
    '"' ∉ (applyLineM lang l e).Exec ∧ '\'' ∉ (applyLineM lang l e).Exec := by
  rcases (applyKV_fields lang (parseKeypairM l) e).2 with he | he
  · unfold applyLineM
    rw [he]
    exact h
  · unfold applyLineM
    rw [he]
    constructor <;> intro hm <;> rw [List.mem_filter] at hm <;> simp at hm

theorem scanEntryLines_Exec_no_quotes (lang : List Char) :
    ∀ (lines : List (List Char)) (e : DesktopEntry),
      ('"' ∉ e.Exec ∧ '\'' ∉ e.Exec) →
      '"' ∉ (scanEntryLines lang e lines).Exec ∧ '\'' ∉ (scanEntryLines lang e lines).Exec
  | [], _, h => h
  | l :: ls, e, h => by
    unfold scanEntryLines
    split
    · exact h
    · exact scanEntryLines_Exec_no_quotes lang ls (applyLineM lang l e)
        (applyLineM_Exec_no_quotes lang l e h)

theorem nameFallback_Exec (e : DesktopEntry) : (nameFallback e).Exec = e.Exec := by
  unfold nameFallback
  split <;> rfl

theorem commentFallback_Exec (e : DesktopEntry) : (commentFallback e).Exec = e.Exec := by
  unfold commentFallback
  split <;> rfl

theorem scanEntryLines_break (lang : List Char) :
    ∀ (pre : List (List Char)) (e : DesktopEntry) (bad : List Char)
      (rest : List (List Char)),
      bad.head? = some '[' → bad ≠ sectionHeader →
      scanEntryLines lang e (pre ++ bad :: rest) = scanEntryLines lang e pre
  | [], e, bad, rest, h1, h2 => by
    rw [List.nil_append]
    show (if bad.head? = some '[' ∧ bad ≠ sectionHeader then e
      else scanEntryLines lang (applyLineM lang bad e) rest) = scanEntryLines lang e []
    rw [if_pos ⟨h1, h2⟩]
    rfl
  | l :: pre', e, bad, rest, h1, h2 => by
    rw [List.cons_append]
    show (if l.head? = some '[' ∧ l ≠ sectionHeader then e
        else scanEntryLines lang (applyLineM lang l e) (pre' ++ bad :: rest))
      = (if l.head? = some '[' ∧ l ≠ sectionHeader then e
        else scanEntryLines lang (applyLineM lang l e) pre')
    split
    · rfl
    · exact scanEntryLines_break lang pre' (applyLineM lang l e) bad rest h1 h2

/-- Claim C8: the parser stops at the first line starting with `[` that is
not the literal `[Desktop Entry]` header (keys on and after that line never
affect the descriptor), the stored exec template never contains a double or
single quote, and parsing the stream `Name=Foo\nExec="cmd" --flag\n` yields
a descriptor with name `Foo` and exec template `cmd --flag`. -/
theorem entry_parser_section_stop_and_quote_strip :
    (∀ (id lang : List Char) (pre : List (List Char)) (bad : List Char)
        (rest : List (List Char)),
        bad.head? = some '[' → bad ≠ sectionHeader →
        parseDesktopEntryM id lang (pre ++ bad :: rest) = parseDesktopEntryM id lang pre)
  ∧ (∀ (id lang : List Char) (lines : List (List Char)),
        '"' ∉ (parseDesktopEntryM id lang lines).Exec
      ∧ '\'' ∉ (parseDesktopEntryM id lang lines).Exec)
  ∧ (∀ id lang : List Char,
        (parseDesktopEntryM id lang (goLines ("Name=Foo\nExec=\"cmd\" --flag\n".toList))).Name
          = "Foo".toList
      ∧ (parseDesktopEntryM id lang (goLines ("Name=Foo\nExec=\"cmd\" --flag\n".toList))).Exec
          = "cmd --flag".toList) := by
  refine ⟨?_, ?_, ?_⟩
  · intro id lang pre bad rest h1 h2
    unfold parseDesktopEntryM
    rw [scanEntryLines_break lang pre (initEntry id) bad rest h1 h2]
  · intro id lang lines
    have h0 : '"' ∉ (initEntry id).Exec ∧ '\'' ∉ (initEntry id).Exec := by simp [initEntry]
    have hs := scanEntryLines_Exec_no_quotes lang lines (initEntry id) h0
    unfold parseDesktopEntryM
    rw [commentFallback_Exec, nameFallback_Exec]
    exact hs
  · intro id lang
    have hg : goLines ("Name=Foo\nExec=\"cmd\" --flag\n".toList)
        = ["Name=Foo".toList, ("Exec=\"cmd\" --flag").toList] := by decide
    rw [hg]
    have hnl : ¬ (("Exec".toList : List Char) = nameLocKey lang) := by
      intro h
      have hN : (nameLocKey lang).head? = some 'N' := by simp [nameLocKey]
      have hE : (("Exec".toList : List Char)).head? = some 'E' := by decide
      rw [h, hN] at hE
      exact absurd hE (by decide)
    have hcl : ¬ (("Exec".toList : List Char) = commentLocKey lang) := by
      intro h
      have hC : (commentLocKey lang).head? = some 'C' := by simp [commentLocKey]
      have hE : (("Exec".toList : List Char)).head? = some 'E' := by decide
      rw [h, hC] at hE
      exact absurd hE (by decide)
    have hk1 : parseKeypairM ("Name=Foo".toList) = ("Name".toList, "Foo".toList) := by decide
    have hk2 : parseKeypairM (("Exec=\"cmd\" --flag").toList)
        = ("Exec".toList, ("\"cmd\" --flag").toList) := by decide
    have e1 : applyLineM lang ("Name=Foo".toList) (initEntry id)
        = { initEntry id with Name := "Foo".toList } := by
      unfold applyLineM applyKV
      rw [hk1]
      rw [if_neg (by decide), if_pos (by decide)]
    have e2 : applyLineM lang (("Exec=\"cmd\" --flag").toList)
          { initEntry id with Name := "Foo".toList }
        = { initEntry id with Name := "Foo".toList, Exec := "cmd --flag".toList } := by
      unfold applyLineM applyKV
      rw [hk2]
      rw [if_neg (by decide), if_neg (by decide), if_neg hnl,
        if_neg (by decide), if_neg hcl, if_neg (by decide),
        if_neg (by decide), if_neg (by decide), if_neg (by decide), if_pos (by decide)]
      rfl
    have hscan : scanEntryLines lang (initEntry id)
          ["Name=Foo".toList, ("Exec=\"cmd\" --flag").toList]
        = { initEntry id with Name := "Foo".toList, Exec := "cmd --flag".toList } := by
      show (if ("Name=Foo".toList : List Char).head? = some '['
            ∧ ("Name=Foo".toList : List Char) ≠ sectionHeader then initEntry id
          else scanEntryLines lang (applyLineM lang ("Name=Foo".toList) (initEntry id))
            [("Exec=\"cmd\" --flag").toList])
        = { initEntry id with Name := "Foo".toList, Exec := "cmd --flag".toList }
      rw [if_neg (by decide), e1]
      show (if (("Exec=\"cmd\" --flag").toList : List Char).head? = some '['
            ∧ (("Exec=\"cmd\" --flag").toList : List Char) ≠ sectionHeader then
              { initEntry id with Name := "Foo".toList }
          else scanEntryLines lang (applyLineM lang (("Exec=\"cmd\" --flag").toList)
            { initEntry id with Name := "Foo".toList }) [])
        = { initEntry id with Name := "Foo".toList, Exec := "cmd --flag".toList }
      rw [if_neg (by decide), e2]
      rfl
    unfold parseDesktopEntryM
    rw [hscan]
    exact ⟨rfl, rfl⟩

/-- Claim C8 witness: a desktop-action section header cuts parsing off. -/
theorem entry_parser_section_stop_witness :
    parseDesktopEntryM ("a.desktop".toList) [] (["Name=Foo".toList]
        ++ ("[Desktop Action x]".toList) :: ["Name=Bar".toList])
      = parseDesktopEntryM ("a.desktop".toList) [] ["Name=Foo".toList] :=
  entry_parser_section_stop_and_quote_strip.1 ("a.desktop".toList) [] ["Name=Foo".toList]
    ("[Desktop Action x]".toList) ["Name=Bar".toList] (by decide) (by decide)

/-- Claim C9: parsing itself never fails — readable content always yields
`some` descriptor, `none` arises exactly from the file-open step, and
content is harmless: a line whose keypair has an empty value (no `=`, `=`
at index 0, or blank value) is skipped, as is any unknown key. -/
theorem parse_desktop_entry_total :
    (∀ (id lang : List Char) (lines : List (List Char)),
        parseDesktopEntryFileM id lang (some lines) = some (parseDesktopEntryM id lang lines))
  ∧ (∀ (id lang : List Char) (file : Option (List (List Char))),
        parseDesktopEntryFileM id lang file = none ↔ file = none)
  ∧ (∀ (lang l : List Char) (e : DesktopEntry),
        (parseKeypairM l).2 = [] → applyLineM lang l e = e)
  ∧ (∀ (lang l : List Char) (e : DesktopEntry),
        (parseKeypairM l).1 ∉ recognizedKeys lang → applyLineM lang l e = e) := by
  refine ⟨?_, ?_, ?_, ?_⟩
  · intro id lang lines
    rfl
  · intro id lang file
    cases file <;> simp [parseDesktopEntryFileM]
  · intro lang l e h
    unfold applyLineM applyKV
    rw [if_pos h]
  · intro lang l e h
    simp only [recognizedKeys, List.mem_cons, List.not_mem_nil, or_false] at h
    push_neg at h
    obtain ⟨k1, k2, k3, k4, k5, k6, k7, k8, k9⟩ := h
    unfold applyLineM applyKV
    by_cases h1 : (parseKeypairM l).2 = []
    · rw [if_pos h1]
    rw [if_neg h1, if_neg k1, if_neg k2, if_neg k3, if_neg k4, if_neg k5, if_neg k6,
      if_neg k7, if_neg k8, if_neg k9]

/-- Claim C9 witness: a line without `=` is skipped; an unreadable file is
the only `none`. -/
theorem parse_desktop_entry_total_witness :
    applyLineM [] ("garbage".toList) (initEntry ("x".toList)) = initEntry ("x".toList) :=
  parse_desktop_entry_total.2.2.1 [] ("garbage".toList) (initEntry ("x".toList)) (by decide)

/-! ### Claims about the entry index -/

theorem newFiles_length_le : ∀ (seen : List (List Char)) (files : List SourceFile),
    (newFiles seen files).length ≤ files.length
  | _, [] => Nat.le_refl 0
  | seen, f :: fs => by
    simp only [newFiles]
    split
    · exact Nat.le_succ_of_le (newFiles_length_le seen fs)
    · simpa using Nat.succ_le_succ (newFiles_length_le (f.base :: seen) fs)

theorem newFiles_base_nodup : ∀ (seen : List (List Char)) (files : List SourceFile),
    ((newFiles seen files).map SourceFile.base).Nodup
  ∧ ∀ b ∈ (newFiles seen files).map SourceFile.base, b ∉ seen
  | _, [] => by simp [newFiles]
  | seen, f :: fs => by
    by_cases hseen : f.base ∈ seen
    · have hnf : newFiles seen (f :: fs) = newFiles seen fs := by
        simp only [newFiles]
        rw [if_pos hseen]
      rw [hnf]
      exact newFiles_base_nodup seen fs
    · have hnf : newFiles seen (f :: fs) = f :: newFiles (f.base :: seen) fs := by
        simp only [newFiles]
        rw [if_neg hseen]
      rw [hnf]
      obtain ⟨ih1, ih2⟩ := newFiles_base_nodup (f.base :: seen) fs
      constructor
      · rw [List.map_cons]
        exact List.nodup_cons.mpr
          ⟨fun hmem => (ih2 f.base hmem) (List.mem_cons_self _ _), ih1⟩
      · intro b hb
        rw [List.map_cons, List.mem_cons] at hb
        rcases hb with hb | hb
        · exact hb ▸ hseen
        · exact fun hbs => (ih2 b hb) (List.mem_cons_of_mem _ hbs)

theorem scanFold_spec (lang : List Char) : ∀ (files : List SourceFile) (st : ScanState),
    (∀ f ∈ files, f.content ≠ none) →
    (files.foldl (scanStep lang) st).entries
        = st.entries ++ (newFiles st.seenIds files).map (parseOfM lang)
    ∧ (files.foldl (scanStep lang) st).skipped
        = st.skipped + (files.length - (newFiles st.seenIds files).length)
  | [], st, _ => by simp [newFiles]
  | f :: fs, st, h => by
    have hf : f.content ≠ none := h f (List.mem_cons_self f fs)
    have htail : ∀ g ∈ fs, g.content ≠ none := fun g hg => h g (List.mem_cons_of_mem f hg)
    obtain ⟨lines, hlines⟩ : ∃ lines, f.content = some lines := by
      cases hc : f.content with
      | none => exact absurd hc hf
      | some lines => exact ⟨lines, rfl⟩
    rw [List.foldl_cons]
    by_cases hseen : f.base ∈ st.seenIds
    · have hstep : scanStep lang st f = { st with skipped := st.skipped + 1 } := by
        unfold scanStep
        rw [if_pos hseen]
      rw [hstep]
      obtain ⟨ih1, ih2⟩ := scanFold_spec lang fs { st with skipped := st.skipped + 1 } htail
      have hnf : newFiles st.seenIds (f :: fs) = newFiles st.seenIds fs := by
        simp only [newFiles]
        rw [if_pos hseen]
      constructor
      · rw [ih1, hnf]
      · rw [ih2, hnf]
        have hle := newFiles_length_le st.seenIds fs
        simp only [List.length_cons]
        omega
    · have hid : (parseDesktopEntryM f.base lang lines).DesktopID = f.base :=
        parseDesktopEntryM_DesktopID f.base lang lines
      have hstep : scanStep lang st f =
          { st with
            hidden := if (parseDesktopEntryM f.base lang lines).NoDisplay then
                st.hidden + 1 else st.hidden
            entries := st.entries ++ [parseDesktopEntryM f.base lang lines]
            seenIds := f.base :: st.seenIds } := by
        unfold scanStep
        rw [if_neg hseen, hlines]
        show ({ st with
            hidden := if (parseDesktopEntryM f.base lang lines).NoDisplay then
                st.hidden + 1 else st.hidden
            entries := st.entries ++ [parseDesktopEntryM f.base lang lines]
            seenIds := (parseDesktopEntryM f.base lang lines).DesktopID :: st.seenIds }
          : ScanState) = _
        rw [hid]
      rw [hstep]
      obtain ⟨ih1, ih2⟩ := scanFold_spec lang fs
        { st with
          hidden := if (parseDesktopEntryM f.base lang lines).NoDisplay then
              st.hidden + 1 else st.hidden
          entries := st.entries ++ [parseDesktopEntryM f.base lang lines]
          seenIds := f.base :: st.seenIds } htail
      have hnf : newFiles st.seenIds (f :: fs) = f :: newFiles (f.base :: st.seenIds) fs := by
        simp only [newFiles]
        rw [if_neg hseen]
      have hparse : parseOfM lang f = parseDesktopEntryM f.base lang lines := by
        unfold parseOfM
        rw [hlines]
        rfl
      constructor
      · rw [ih1, hnf]
        simp [hparse, List.append_assoc]
      · rw [ih2, hnf]
        have hle := newFiles_length_le (f.base :: st.seenIds) fs
        simp only [List.length_cons]
        omega

/-- Claim C5: during a refresh scan over readable files the descriptor id
(the source-file basename) is unique across the live index, the stored
entries are exactly the parses of the first file bearing each basename in
priority order (later duplicates never override), and every later
duplicate bumps the skipped counter by exactly one: skipped plus the
number of distinct winners equals the number of files scanned. -/
theorem scan_dedup_first_wins :
    ∀ (lang : List Char) (files : List SourceFile),
      (∀ f ∈ files, f.content ≠ none) →
      ((refreshEntries lang files).map DesktopEntry.DesktopID).Nodup
    ∧ (scanFiles lang files).entries = (newFiles [] files).map (parseOfM lang)
    ∧ (scanFiles lang files).skipped + (newFiles [] files).length = files.length := by
  intro lang files h
  obtain ⟨h1, h2⟩ := scanFold_spec lang files ⟨[], [], 0, 0⟩ h
  have he : (scanFiles lang files).entries = (newFiles [] files).map (parseOfM lang) := by
    simpa [scanFiles] using h1
  refine ⟨?_, he, ?_⟩
  · have hperm : (refreshEntries lang files).Perm (scanFiles lang files).entries :=
      List.perm_insertionSort nameLe _
    have hmap : ((scanFiles lang files).entries).map DesktopEntry.DesktopID
        = (newFiles [] files).map SourceFile.base := by
      rw [he, List.map_map]
      apply List.map_congr_left
      intro f _
      show (parseOfM lang f).DesktopID = f.base
      exact parseDesktopEntryM_DesktopID f.base lang (f.content.getD [])
    refine (List.Perm.nodup_iff (hperm.map DesktopEntry.DesktopID)).mpr ?_
    rw [hmap]
    exact (newFiles_base_nodup [] files).1
  · have hle := newFiles_length_le ([] : List (List Char)) files
    have h2' : (scanFiles lang files).skipped
        = files.length - (newFiles [] files).length := by
      simpa [scanFiles] using h2
    omega

/-- Claim C5 witness: two files sharing the basename `a.desktop`; the first
wins, the duplicate is discarded and counted once. -/
theorem scan_dedup_first_wins_witness :
    (((refreshEntries [] [⟨"a.desktop".toList, some ["Name=A".toList]⟩,
          ⟨"a.desktop".toList, some ["Name=B".toList]⟩]).map
        DesktopEntry.DesktopID).Nodup
    ∧ (scanFiles [] [⟨"a.desktop".toList, some ["Name=A".toList]⟩,
          ⟨"a.desktop".toList, some ["Name=B".toList]⟩]).entries
        = (newFiles [] [⟨"a.desktop".toList, some ["Name=A".toList]⟩,
            ⟨"a.desktop".toList, some ["Name=B".toList]⟩]).map (parseOfM [])
    ∧ (scanFiles [] [⟨"a.desktop".toList, some ["Name=A".toList]⟩,
          ⟨"a.desktop".toList, some ["Name=B".toList]⟩]).skipped
        + (newFiles [] [⟨"a.desktop".toList, some ["Name=A".toList]⟩,
            ⟨"a.desktop".toList, some ["Name=B".toList]⟩]).length
        = [⟨"a.desktop".toList, some ["Name=A".toList]⟩,
            (⟨"a.desktop".toList, some ["Name=B".toList]⟩ : SourceFile)].length) :=
  scan_dedup_first_wins [] [⟨"a.desktop".toList, some ["Name=A".toList]⟩,
    ⟨"a.desktop".toList, some ["Name=B".toList]⟩] (by decide)

/-- Claim C4: after any refresh, the empty-phrase query emits exactly the
non-hidden descriptors of the index, in the index's ascending localized
name order; and no phrase ever emits a hidden descriptor. -/
theorem query_empty_phrase_nonhidden_sorted :
    ∀ (lang : List Char) (files : List SourceFile),
      queryM (refreshEntries lang files) []
        = (refreshEntries lang files).filter (fun e => !e.NoDisplay)
    ∧ List.Pairwise nameLe (queryM (refreshEntries lang files) [])
    ∧ ∀ (p : List Char) (e : DesktopEntry),
        e ∈ queryM (refreshEntries lang files) p → e.NoDisplay = false := by
  intro lang files
  have hq : queryM (refreshEntries lang files) []
      = (refreshEntries lang files).filter (fun e => !e.NoDisplay) := by
    unfold queryM
    apply List.filter_congr
    intro e _
    cases hnd : e.NoDisplay <;> simp [entryMatches, hnd]
  have hsorted : List.Pairwise nameLe (refreshEntries lang files) :=
    @List.sorted_insertionSort DesktopEntry nameLe instDecNameLe
      ⟨fun a b => strLe_total a.NameLoc b.NameLoc⟩
      ⟨fun _ _ _ h1 h2 => strLe_trans _ _ _ h1 h2⟩
      (scanFiles lang files).entries
  refine ⟨hq, ?_, ?_⟩
  · rw [hq]
    exact List.Pairwise.sublist (List.filter_sublist _) hsorted
  · intro p e he
    unfold queryM at he
    rw [List.mem_filter] at he
    have h2 := he.2
    simp only [Bool.and_eq_true, Bool.not_eq_true'] at h2
    exact h2.2

/-- Claim C4 witness: a hidden and a visible entry; the empty-phrase query
keeps only the visible one and the emitted entry is not hidden. -/
theorem query_empty_phrase_witness :
    (parseDesktopEntryM ("b.desktop".toList) [] ["Name=B".toList]).NoDisplay = false :=
  (query_empty_phrase_nonhidden_sorted []
      [⟨"a.desktop".toList, some ["Name=A".toList, "NoDisplay=true".toList]⟩,
       ⟨"b.desktop".toList, some ["Name=B".toList]⟩]).2.2 []
    (parseDesktopEntryM ("b.desktop".toList) [] ["Name=B".toList]) (by decide)

/-! ### Claims about the instance coordinator -/

theorem digitChar_facts (d : Nat) (hd : d < 10) :
    (digitChar d).isDigit = true ∧ (digitChar d).toNat = 48 + d
  ∧ digitChar d ≠ '-' ∧ digitChar d ≠ '+' := by
  interval_cases d <;> exact ⟨by decide, by decide, by decide, by decide⟩

theorem foldl_rev_ofDigits : ∀ (L : List Nat) (a : Nat),
    List.foldl (fun x d => x * 10 + d) a L.reverse = a * 10 ^ L.length + Nat.ofDigits 10 L
  | [], a => by simp
  | d :: L, a => by
    rw [List.reverse_cons, List.foldl_append, foldl_rev_ofDigits L a]
    simp only [List.foldl_cons, List.foldl_nil, Nat.ofDigits_cons, List.length_cons, pow_succ]
    ring

theorem digitsToNat_goItoa (n : Nat) : digitsToNat (goItoa n) = n := by
  by_cases h0 : n = 0
  · subst h0
    decide
  · unfold goItoa
    rw [if_neg h0]
    unfold digitsToNat
    rw [← List.map_reverse, List.foldl_map]
    have hlt : ∀ d ∈ (Nat.digits 10 n).reverse, d < 10 := fun d hd =>
      Nat.digits_lt_base (by norm_num) (List.mem_reverse.1 hd)
    have hcongr : List.foldl (fun x c => x * 10 + ((digitChar c).toNat - 48)) 0
          ((Nat.digits 10 n).reverse)
        = List.foldl (fun x d => x * 10 + d) 0 ((Nat.digits 10 n).reverse) := by
      apply List.foldl_ext
      intro a b hb
      rw [(digitChar_facts b (hlt b hb)).2.1]
      omega
    rw [hcongr, foldl_rev_ofDigits]
    simp [Nat.ofDigits_digits]

theorem goAtoi_goItoa (n : Nat) (hn : n < 2 ^ 63) : goAtoi (goItoa n) = some (n : Int) := by
  by_cases h0 : n = 0
  · subst h0
    decide
  · have hne : Nat.digits 10 n ≠ [] := Nat.digits_ne_nil_iff_ne_zero.2 h0
    have hgoi : goItoa n = ((Nat.digits 10 n).map digitChar).reverse := by
      unfold goItoa
      rw [if_neg h0]
    obtain ⟨d, M, hdM⟩ : ∃ d M, (Nat.digits 10 n).reverse = d :: M := by
      cases hrev : (Nat.digits 10 n).reverse with
      | nil => exact absurd (List.reverse_eq_nil_iff.1 hrev) hne
      | cons d M => exact ⟨d, M, rfl⟩
    have hform : goItoa n = digitChar d :: M.map digitChar := by
      rw [hgoi, ← List.map_reverse, hdM, List.map_cons]
    have hd10 : d < 10 := Nat.digits_lt_base (by norm_num)
      (List.mem_reverse.1 (hdM ▸ List.mem_cons_self d M))
    have hhead : (goItoa n).head? = some (digitChar d) := by
      rw [hform]
      rfl
    have hnegP : ¬ ((goItoa n).head? = some '-') := by
      rw [hhead]
      intro hcon
      exact (digitChar_facts d hd10).2.2.1 (Option.some.inj hcon)
    have hplusP : ¬ ((goItoa n).head? = some '+') := by
      rw [hhead]
      intro hcon
      exact (digitChar_facts d hd10).2.2.2 (Option.some.inj hcon)
    unfold goAtoi
    rw [decide_eq_false hnegP, if_neg (by tauto :
      ¬ ((goItoa n).head? = some '+' ∨ (goItoa n).head? = some '-'))]
    unfold goAtoiCore
    have hdigits : (goItoa n).all Char.isDigit = true := by
      rw [hgoi, List.all_eq_true]
      intro c hc
      rw [List.mem_reverse, List.mem_map] at hc
      obtain ⟨d', hd', rfl⟩ := hc
      exact (digitChar_facts d' (Nat.digits_lt_base (by norm_num) hd')).1
    have hne' : goItoa n ≠ [] := by
      rw [hform]
      simp
    rw [if_neg (by simp [hne', hdigits])]
    rw [if_neg (by decide : ¬ ((false : Bool) = true))]
    rw [digitsToNat_goItoa]
    rw [if_pos hn]

/-- Claim C3: on lock contention the second process always exits with
status 0; when the lock-file content parses as a decimal pid it relays the
toggle signal to exactly that pid, and a pid written by the owner
(`strconv.Itoa`) always parses back to itself; when the file is unreadable
or unparsable it exits silently without relaying — the relay path is a
total function and never crashes. -/
theorem relay_on_contention_behavior :
    (∀ c, (relayOnContention c).exitCode = 0)
  ∧ (∀ (c : Option (List Char)) (pid : Int),
      getLockFilePidM c = some pid → relayOnContention c = ⟨some pid, 0⟩)
  ∧ (∀ c, getLockFilePidM c = none → relayOnContention c = ⟨none, 0⟩)
  ∧ (∀ n : Nat, n < 2 ^ 63 → relayOnContention (some (goItoa n)) = ⟨some (n : Int), 0⟩) := by
  refine ⟨?_, ?_, ?_, ?_⟩
  · intro c
    unfold relayOnContention
    cases h : getLockFilePidM c <;> rfl
  · intro c pid h
    unfold relayOnContention
    rw [h]
  · intro c h
    unfold relayOnContention
    rw [h]
  · intro n hn
    have hpid : getLockFilePidM (some (goItoa n)) = some (n : Int) := by
      unfold getLockFilePidM
      rw [Option.some_bind]
      exact goAtoi_goItoa n hn
    unfold relayOnContention
    rw [hpid]

/-- Claim C3 witness: the owner-written content `"0"` relays to pid 0 and
exits 0; garbage content still exits 0. -/
theorem relay_on_contention_behavior_witness :
    relayOnContention (some (goItoa 0)) = ⟨some ((0 : Nat) : Int), 0⟩
  ∧ (relayOnContention (some ("garbage pid".toList))).exitCode = 0 :=
  ⟨relay_on_contention_behavior.2.2.2 0 (by decide),
   relay_on_contention_behavior.1 (some ("garbage pid".toList))⟩
